/-
  Verification of the checkers rules engine and AI search
  (classic-checkersx, src/logic.ts section of App.tsx).

  The board, move generator, move applicator, static evaluator,
  minimax search and AI move selector are shallowly embedded below,
  following the TypeScript source line by line.  JavaScript numbers
  used as coordinates/scores become `Int`; the 8x8 piece array becomes
  a total function on `Fin 8`; out-of-range array reads (which yield
  `undefined`, treated as an empty square by the guarded code paths)
  become `none`; the -Infinity/`+Infinity` sentinels of the
  alpha-beta window become `Option Int` with `none` standing for the
  infinite end; the in-place shuffle and random index of `getAiMove`
  become explicit parameters.
-/
import Mathlib

namespace Checkers

/-- The two players, `'red' | 'black'` in types.ts. -/
inductive Player where
  | red : Player
  | black : Player
deriving DecidableEq, Repr

/-- A piece: owner and king flag (types.ts `Piece`). -/
structure Piece where
  player : Player
  isKing : Bool
deriving DecidableEq, Repr

/-- A square coordinate (types.ts `Position`); JS numbers become `Int`. -/
structure Pos where
  row : Int
  col : Int
deriving DecidableEq, Repr

/-- A move (types.ts `Move`): `from`/`to` squares, jump flag, and the
optional square of the jumped piece.  `from` is a Lean keyword, so the
fields are named `fromSq`/`toSq`. -/
structure Move where
  fromSq : Pos
  toSq : Pos
  isJump : Bool
  jumpedPiece : Option Pos
deriving DecidableEq, Repr

/-- AI difficulty tiers (types.ts `Difficulty`). -/
inductive Difficulty where
  | easy : Difficulty
  | medium : Difficulty
  | hard : Difficulty
deriving DecidableEq, Repr

/-- `BOARD_SIZE = 8` in logic. -/
def BOARD_SIZE : Int := 8

/-- The board: an 8x8 grid of optional pieces (types.ts `BoardState`).
Indexing by `Fin 8` captures that only the 64 real squares can hold a
piece; the `Int`-indexed accessors below mirror the JS array reads. -/
def Board := Fin 8 → Fin 8 → Option Piece

instance : DecidableEq Board :=
  inferInstanceAs (DecidableEq (Fin 8 → Fin 8 → Option Piece))

/-- Source `isValidPos`: both coordinates in `[0, BOARD_SIZE)`. -/
def isValidPos (row col : Int) : Bool :=
  decide (0 ≤ row ∧ row < BOARD_SIZE ∧ 0 ≤ col ∧ col < BOARD_SIZE)

/-- Read `board[r][c]`.  An out-of-range read yields `none`, matching
the `undefined`/falsy treatment in the guarded source paths. -/
def getP (b : Board) (r c : Int) : Option Piece :=
  if 0 ≤ r ∧ r < 8 ∧ 0 ≤ c ∧ c < 8 then
    b ⟨r.toNat % 8, Nat.mod_lt _ (Nat.succ_pos _)⟩
      ⟨c.toNat % 8, Nat.mod_lt _ (Nat.succ_pos _)⟩
  else none

/-- Write `board[r][c] = v`.  Out-of-range writes are no-ops (they can
never be observed through `getP`). -/
def setP (b : Board) (r c : Int) (v : Option Piece) : Board :=
  fun i j => if (i : Int) = r ∧ (j : Int) = c then v else b i j

/-- The move directions of a piece: all four diagonals for a king,
the two forward diagonals otherwise (`directions` in `getValidMoves`). -/
def dirsFor (piece : Piece) : List (Int × Int) :=
  if piece.isKing then [(-1, -1), (-1, 1), (1, -1), (1, 1)]
  else if piece.player = Player.red then [(-1, -1), (-1, 1)]
  else [(1, -1), (1, 1)]

/-- The capturing moves pushed by the first `directions.forEach` loop of
`getValidMoves`: for each direction, land two squares away on an empty
valid square over an adjacent opposing piece. -/
def jumpsAt (b : Board) (pos : Pos) : List Move :=
  match getP b pos.row pos.col with
  | none => []
  | some piece =>
    (dirsFor piece).filterMap (fun d =>
      let jumpRow := pos.row + d.1 * 2
      let jumpCol := pos.col + d.2 * 2
      let midRow := pos.row + d.1
      let midCol := pos.col + d.2
      if isValidPos jumpRow jumpCol then
        match getP b jumpRow jumpCol, getP b midRow midCol with
        | none, some mid =>
          if mid.player ≠ piece.player then
            some ⟨pos, ⟨jumpRow, jumpCol⟩, true, some ⟨midRow, midCol⟩⟩
          else none
        | _, _ => none
      else none)

/-- The simple moves pushed by the second `directions.forEach` loop of
`getValidMoves`: one diagonal step onto an empty valid square. -/
def simplesAt (b : Board) (pos : Pos) : List Move :=
  match getP b pos.row pos.col with
  | none => []
  | some piece =>
    (dirsFor piece).filterMap (fun d =>
      let newRow := pos.row + d.1
      let newCol := pos.col + d.2
      if isValidPos newRow newCol then
        match getP b newRow newCol with
        | none => some ⟨pos, ⟨newRow, newCol⟩, false, none⟩
        | some _ => none
      else none)

/-- Source `getValidMoves(board, pos, mustJump)`.  Jumps are computed
first; if any exist and `mustJump` is set they are returned alone;
otherwise (no `mustJump`, or no jumps at all) the simple moves are
appended.  Note that with `mustJump = true` and no jumps available the
source falls into the second branch and returns the simple moves. -/
def getValidMoves (b : Board) (pos : Pos) (mustJump : Bool) : List Move :=
  match getP b pos.row pos.col with
  | none => []
  | some _ =>
    let jumps := jumpsAt b pos
    if jumps.length > 0 ∧ mustJump = true then jumps
    else if mustJump = false ∨ jumps.length = 0 then jumps ++ simplesAt b pos
    else jumps

/-- Source `hasAnyJumps(board, player)`: some piece of `player` has a
capturing move. -/
def hasAnyJumps (b : Board) (player : Player) : Bool :=
  (List.range 8).any (fun r => (List.range 8).any (fun c =>
    match getP b r c with
    | some piece =>
      decide (piece.player = player) &&
        (getValidMoves b ⟨r, c⟩ false).any (fun m => m.isJump)
    | none => false))

/-- The opponent of a player (`player === 'red' ? 'black' : 'red'`). -/
def otherPlayer : Player → Player
  | Player.red => Player.black
  | Player.black => Player.red

/-- Result record of `simulateMove`. -/
structure SimResult where
  newBoard : Board
  nextTurn : Player
  nextMustJumpFrom : Option Pos
deriving DecidableEq

/-- The promotion condition of `simulateMove`/`executeMove`: a non-king
landing on row 0 (red) or row `BOARD_SIZE - 1` (black). -/
def promoFlag (piece : Piece) (move : Move) : Bool :=
  !piece.isKing &&
    (decide (piece.player = Player.red ∧ move.toSq.row = 0) ||
     decide (piece.player = Player.black ∧ move.toSq.row = BOARD_SIZE - 1))

/-- The board produced by `simulateMove` for the piece found on the
`from` square: place the (possibly promoted) piece on `to`, clear
`from`, and clear the jumped square when the move is a jump carrying
one.  The source mutates the moved piece's `isKing` after placing it;
placing the promoted piece directly is observationally identical. -/
def simBoard (b : Board) (move : Move) (piece : Piece) : Board :=
  let piece' : Piece := ⟨piece.player, piece.isKing || promoFlag piece move⟩
  let b1 := setP b move.toSq.row move.toSq.col (some piece')
  let b2 := setP b1 move.fromSq.row move.fromSq.col none
  match move.jumpedPiece with
  | some j => if move.isJump then setP b2 j.row j.col none else b2
  | none => b2

/-- The `followUpMoves` computed by `simulateMove` after a jump: the
jumps available from the landing square of the successor board. -/
def followUpsAfter (nb : Board) (move : Move) : List Move :=
  (getValidMoves nb move.toSq true).filter (fun m => m.isJump)

/-- Source `simulateMove(board, move, currentPlayer)`.  Returns `none`
when the `from` square is empty: there the source dereferences `null`
(`newBoard[move.from.row][move.from.col]!`) and throws, so the caller
receives no successor state.  Otherwise applies the move and reports
whether the same player must continue capturing from the landing
square. -/
def simulateMove (b : Board) (move : Move) (currentPlayer : Player) :
    Option SimResult :=
  match getP b move.fromSq.row move.fromSq.col with
  | none => none
  | some piece =>
    if move.isJump = true then
      if (followUpsAfter (simBoard b move piece) move).length = 0 then
        some ⟨simBoard b move piece, otherPlayer currentPlayer, none⟩
      else some ⟨simBoard b move piece, currentPlayer, some move.toSq⟩
    else some ⟨simBoard b move piece, otherPlayer currentPlayer, none⟩

/-- The contribution of square `(r, c)` to `evaluateBoard`'s running
score: base value 10 (man) / 30 (king), advancement toward the
promotion row, +2 back-row defense, +2 center control; added for the
perspective player's pieces and subtracted for the opponent's. -/
def squareScore (b : Board) (player : Player) (r c : Int) : Int :=
  match getP b r c with
  | none => 0
  | some piece =>
    let v1 : Int := if piece.isKing then 30 else 10
    let v2 : Int :=
      if piece.player = Player.red then v1 + (7 - r) + (if r = 7 then 2 else 0)
      else v1 + r + (if r = 0 then 2 else 0)
    let v3 : Int := v2 + (if 2 ≤ c ∧ c ≤ 5 ∧ 2 ≤ r ∧ r ≤ 5 then 2 else 0)
    if piece.player = player then v3 else -v3

/-- The per-square contributions of `evaluateBoard`, in loop order. -/
def scoreList (b : Board) (player : Player) : List Int :=
  (List.range 8).flatMap (fun r =>
    (List.range 8).map (fun c => squareScore b player (Int.ofNat r) (Int.ofNat c)))

/-- Source `evaluateBoard(board, player)`: the summed heuristic. -/
def evaluateBoard (b : Board) (player : Player) : Int :=
  (scoreList b player).sum

/-- The number of pieces on the board; together with the remaining
depth it is the termination measure of the search. -/
def pieceCount (b : Board) : Nat :=
  ∑ p : Fin 8 × Fin 8, (if (b p.1 p.2).isSome then 1 else 0)

/-- All moves of `player` collected by the square-scanning loop shared
by `minimax` and `getAiMove`: the moves of every piece of `player`, in
row-major order, filtered to jumps when `hasAnyJumps` holds (the
global mandatory-jump rule). -/
def allPlayerMoves (b : Board) (player : Player) : List Move :=
  let globalJump := hasAnyJumps b player
  (List.range 8).flatMap (fun r => (List.range 8).flatMap (fun c =>
    match getP b r c with
    | some piece =>
      if piece.player = player then
        let moves := getValidMoves b ⟨r, c⟩ false
        if globalJump = true then moves.filter (fun m => m.isJump) else moves
      else []
    | none => []))

/-- The `possibleMoves` computed at a `minimax` node: mid-chain (a
forced square is set) only the jumps from that square, otherwise all
moves of the side to move at this node. -/
def nodeMoves (b : Board) (maximizingPlayer : Bool) (player : Player)
    (mustJumpFrom : Option Pos) : List Move :=
  match mustJumpFrom with
  | some p => (getValidMoves b p true).filter (fun m => m.isJump)
  | none =>
    allPlayerMoves b (if maximizingPlayer then player else otherPlayer player)

/-- `Math.max` on a score where the accumulator may be `-Infinity`
(encoded `none`). -/
def amax (a : Option Int) (s : Int) : Option Int :=
  match a with
  | none => some s
  | some x => some (max x s)

/-- `Math.min` on a score where the accumulator may be `Infinity`
(encoded `none`). -/
def bmin (b : Option Int) (s : Int) : Option Int :=
  match b with
  | none => some s
  | some x => some (min x s)

/-- The pruning test `beta <= alpha`, where `beta` may be `Infinity`
(`none`, never ≤ a finite value) and `alpha` may be `-Infinity`
(`none`, never ≥ a finite value). -/
def abLe (beta alpha : Option Int) : Bool :=
  match beta, alpha with
  | some bz, some az => decide (bz ≤ az)
  | _, _ => false

/-- The maximizing loop of `minimax`, as a fold with an early-exit flag
for the `break` on `beta <= alpha`.  State: `(maxEval, alpha, done)`.
`score alpha move` is the recursive search of the move's successor. -/
def abMaxLoop (score : Option Int → Move → Int) (beta : Option Int)
    (moves : List Move) (init : Option Int × Option Int × Bool) :
    Option Int × Option Int × Bool :=
  moves.foldl (fun st move =>
    if st.2.2 = true then st
    else
      let s := score st.2.1 move
      let maxEval' := amax st.1 s
      let alpha' := amax st.2.1 s
      (maxEval', alpha', abLe beta alpha')) init

/-- The minimizing loop of `minimax`.  State: `(minEval, beta, done)`.
`score beta move` is the recursive search of the move's successor. -/
def abMinLoop (score : Option Int → Move → Int) (alpha : Option Int)
    (moves : List Move) (init : Option Int × Option Int × Bool) :
    Option Int × Option Int × Bool :=
  moves.foldl (fun st move =>
    if st.2.2 = true then st
    else
      let s := score st.2.1 move
      let minEval' := bmin st.1 s
      let beta' := bmin st.2.1 s
      (minEval', beta', abLe beta' alpha)) init

/-- One search step on a chosen move: apply it, keep the same depth and
orientation while the same side continues a capture chain, otherwise
descend one ply with the orientation flipped.  `currentPlayer` is the
side making `move`; `recurse` performs the recursive `minimax` call.
On an empty `from` square the source would throw inside
`simulateMove`; the `getD` default is never reached on generated
moves. -/
def childCall (recurse : Board → Nat → Option Pos → Bool → Int)
    (b : Board) (depth : Nat) (currentPlayer : Player)
    (continuingMaxi haltedMaxi : Bool) (move : Move) : Int :=
  let res := (simulateMove b move currentPlayer).getD
    ⟨b, otherPlayer currentPlayer, none⟩
  let isTurnContinuing := res.nextTurn = currentPlayer
  let nextDepth := if isTurnContinuing then depth else depth - 1
  let nextMaximizing := if isTurnContinuing then continuingMaxi else haltedMaxi
  recurse res.newBoard nextDepth res.nextMustJumpFrom nextMaximizing

/-- Source `minimax`, with an explicit structural fuel so the function
computes by kernel reduction.  `minimax` below instantiates the fuel
with `depth + pieceCount board + 1`, which the totality theorem shows
is always enough: each recursive call either decreases the depth or
keeps it while a capture removes a piece. -/
def minimaxF : Nat → Board → Nat → Option Int → Option Int → Bool →
    Player → Option Pos → Int
  | 0, _, _, _, _, _, _, _ => 0
  | fuel + 1, board, depth, alpha, beta, maximizingPlayer, player, mustJumpFrom =>
    if depth = 0 then evaluateBoard board player
    else
      let possibleMoves := nodeMoves board maximizingPlayer player mustJumpFrom
      if possibleMoves.length = 0 then
        if maximizingPlayer then -10000 else 10000
      else if maximizingPlayer then
        let st := abMaxLoop
          (fun alpha' move => childCall
            (fun b' d' mjf' maxi' => minimaxF fuel b' d' alpha' beta maxi' player mjf')
            board depth player true false move)
          beta possibleMoves (none, alpha, false)
        st.1.getD 0
      else
        let st := abMinLoop
          (fun beta' move => childCall
            (fun b' d' mjf' maxi' => minimaxF fuel b' d' alpha beta' maxi' player mjf')
            board depth (otherPlayer player) false true move)
          alpha possibleMoves (none, beta, false)
        st.1.getD 0

/-- Source `minimax(board, depth, alpha, beta, maximizingPlayer,
player, mustJumpFrom)`, at its canonical (always sufficient) fuel. -/
def minimax (board : Board) (depth : Nat) (alpha beta : Option Int)
    (maximizingPlayer : Bool) (player : Player) (mustJumpFrom : Option Pos) : Int :=
  minimaxF (depth + pieceCount board + 1) board depth alpha beta
    maximizingPlayer player mustJumpFrom

/-- Definitional unfolding of one step of `minimaxF` at positive
fuel. -/
lemma minimaxF_succ_eq (fuel : Nat) (board : Board) (depth : Nat)
    (alpha beta : Option Int) (maxi : Bool) (player : Player)
    (mjf : Option Pos) :
    minimaxF (fuel + 1) board depth alpha beta maxi player mjf
      = if depth = 0 then evaluateBoard board player
        else if (nodeMoves board maxi player mjf).length = 0 then
          (if maxi = true then -10000 else 10000)
        else if maxi = true then
          (abMaxLoop (fun alpha' move => childCall
              (fun b' d' mjf' maxi' =>
                minimaxF fuel b' d' alpha' beta maxi' player mjf')
              board depth player true false move)
            beta (nodeMoves board maxi player mjf) (none, alpha, false)).1.getD 0
        else
          (abMinLoop (fun beta' move => childCall
              (fun b' d' mjf' maxi' =>
                minimaxF fuel b' d' alpha beta' maxi' player mjf')
              board depth (otherPlayer player) false true move)
            alpha (nodeMoves board maxi player mjf) (none, beta, false)).1.getD 0 := rfl

/-- The `possibleMoves` enumeration at the top of `getAiMove`; it is
verbatim the same square-scanning block as a maximizing `minimax`
node. -/
def aiPossibleMoves (b : Board) (player : Player) (mustJumpFrom : Option Pos) :
    List Move :=
  nodeMoves b true player mustJumpFrom

/-- The root score `getAiMove` computes for a candidate move: simulate
it and run `minimax` with a full window, keeping the depth and the
maximizing orientation while the same player continues a chain. -/
def rootScore (b : Board) (player : Player) (depth : Nat) (move : Move) : Int :=
  childCall
    (fun b' d' mjf' maxi' => minimax b' d' none none maxi' player mjf')
    b depth player true false move

/-- The best-move scan of `getAiMove`: a strict-improvement linear pass
(`evalScore > maxEval`) with `maxEval` starting at `-Infinity`
(`none`). -/
def bestLoop (score : Move → Int) : List Move → Move → Option Int → Move
  | [], best, _ => best
  | m :: rest, best, maxEval =>
    let s := score m
    let better := match maxEval with
      | none => true
      | some x => decide (x < s)
    if better then bestLoop score rest m (some s)
    else bestLoop score rest best maxEval

/-- Source `getAiMove(board, player, difficulty, mustJumpFrom)`.  The
two random effects are explicit parameters: `shuffled` stands for the
in-place `possibleMoves.sort(() => Math.random() - 0.5)` result
scanned by the best-move loop, and `k` for the random index of the
easy tier (`Math.floor(Math.random() * length)`, reduced mod the
length, which the source guarantees anyway).  `bestMove` is seeded
with the head of the unshuffled list, exactly as the source captures
`possibleMoves[0]` before sorting. -/
def getAiMove (b : Board) (player : Player) (difficulty : Difficulty)
    (mustJumpFrom : Option Pos) (shuffled : List Move) (k : Nat) : Option Move :=
  match aiPossibleMoves b player mustJumpFrom with
  | [] => none
  | m0 :: rest =>
    if difficulty = Difficulty.easy then
      some ((m0 :: rest).get ⟨k % (m0 :: rest).length, Nat.mod_lt _ (Nat.succ_pos _)⟩)
    else
      let depth : Nat := if difficulty = Difficulty.medium then 2 else 4
      some (bestLoop (rootScore b player depth) shuffled m0 none)

/-! ### Board access lemmas -/

/-- The `Fin 8` index built from a coordinate known to be in range
casts back to that coordinate. -/
lemma fin_coe_eq (r : Int) (h0 : 0 ≤ r) (h8 : r < 8) :
    (((⟨r.toNat % 8, Nat.mod_lt _ (Nat.succ_pos _)⟩ : Fin 8) : Int)) = r := by
  show ((r.toNat % 8 : Nat) : Int) = r
  omega

lemma getP_setP_same (b : Board) (r c : Int) (v : Option Piece)
    (h : 0 ≤ r ∧ r < 8 ∧ 0 ≤ c ∧ c < 8) :
    getP (setP b r c v) r c = v := by
  obtain ⟨h1, h2, h3, h4⟩ := h
  unfold getP setP
  rw [if_pos ⟨h1, h2, h3, h4⟩, if_pos]
  exact ⟨fin_coe_eq r h1 h2, fin_coe_eq c h3 h4⟩

lemma getP_setP_ne (b : Board) (r c : Int) (v : Option Piece) (r' c' : Int)
    (h : ¬(r' = r ∧ c' = c)) :
    getP (setP b r c v) r' c' = getP b r' c' := by
  unfold getP setP
  by_cases hv : 0 ≤ r' ∧ r' < 8 ∧ 0 ≤ c' ∧ c' < 8
  · rw [if_pos hv, if_pos hv, if_neg]
    intro hc
    refine h ⟨?_, ?_⟩
    · rw [← fin_coe_eq r' hv.1 hv.2.1]; exact hc.1
    · rw [← fin_coe_eq c' hv.2.2.1 hv.2.2.2]; exact hc.2
  · rw [if_neg hv, if_neg hv]

/-- An occupied square is in range. -/
lemma getP_isSome_valid (b : Board) (r c : Int) (p : Piece)
    (h : getP b r c = some p) : 0 ≤ r ∧ r < 8 ∧ 0 ≤ c ∧ c < 8 := by
  by_contra hv
  rw [getP, if_neg hv] at h
  exact Option.noConfusion h

/-- Writing a square exchanges its old occupancy for the new one in
the piece count. -/
lemma pieceCount_setP (b : Board) (r c : Int) (v : Option Piece)
    (h : 0 ≤ r ∧ r < 8 ∧ 0 ≤ c ∧ c < 8) :
    pieceCount (setP b r c v) + (if (getP b r c).isSome then 1 else 0)
      = pieceCount b + (if v.isSome then 1 else 0) := by
  classical
  obtain ⟨h1, h2, h3, h4⟩ := h
  set p0 : Fin 8 × Fin 8 :=
    (⟨r.toNat % 8, Nat.mod_lt _ (Nat.succ_pos _)⟩,
     ⟨c.toNat % 8, Nat.mod_lt _ (Nat.succ_pos _)⟩) with hp0
  have hset_ne : ∀ x : Fin 8 × Fin 8, x ≠ p0 →
      setP b r c v x.1 x.2 = b x.1 x.2 := by
    intro x hx
    rw [setP, if_neg]
    intro hc
    apply hx
    have e1 : x.1 = p0.1 := by
      apply Fin.ext
      have hcoe : ((x.1.val : Nat) : Int) = r := hc.1
      show x.1.val = r.toNat % 8
      omega
    have e2 : x.2 = p0.2 := by
      apply Fin.ext
      have hcoe : ((x.2.val : Nat) : Int) = c := hc.2
      show x.2.val = c.toNat % 8
      omega
    exact Prod.ext e1 e2
  have hset_p0 : setP b r c v p0.1 p0.2 = v := by
    rw [setP, if_pos]
    exact ⟨fin_coe_eq r h1 h2, fin_coe_eq c h3 h4⟩
  have hget : getP b r c = b p0.1 p0.2 := by
    rw [getP, if_pos ⟨h1, h2, h3, h4⟩]
  unfold pieceCount
  rw [← Finset.sum_erase_add Finset.univ _ (Finset.mem_univ p0),
    ← Finset.sum_erase_add Finset.univ
      (fun p : Fin 8 × Fin 8 => if (b p.1 p.2).isSome then 1 else 0)
      (Finset.mem_univ p0)]
  have hsums : (∑ x ∈ Finset.univ.erase p0,
        (if (setP b r c v x.1 x.2).isSome then 1 else 0))
      = ∑ x ∈ Finset.univ.erase p0,
        (if (b x.1 x.2).isSome then 1 else 0) := by
    refine Finset.sum_congr rfl (fun x hx => ?_)
    rw [hset_ne x (Finset.ne_of_mem_erase hx)]
  rw [hsums, hset_p0, hget]
  omega

/-! ### Shape of generated moves -/

/-- Structural facts about any move the generator can produce from
`pos`: it starts at `pos` on an occupied square, lands on a distinct
empty in-range square, and when it is a jump it carries the square of
an occupied jumped piece strictly between origin and landing row. -/
def MoveFacts (b : Board) (pos : Pos) (m : Move) : Prop :=
  m.fromSq = pos ∧
  (∃ piece, getP b pos.row pos.col = some piece) ∧
  (0 ≤ m.toSq.row ∧ m.toSq.row < 8 ∧ 0 ≤ m.toSq.col ∧ m.toSq.col < 8) ∧
  getP b m.toSq.row m.toSq.col = none ∧
  m.toSq.row ≠ pos.row ∧
  ((m.isJump = true ∧ ∃ j q, m.jumpedPiece = some j ∧
      getP b j.row j.col = some q ∧ j.row ≠ pos.row ∧ j.row ≠ m.toSq.row) ∨
   (m.isJump = false ∧ m.jumpedPiece = none))

lemma dirsFor_mem (piece : Piece) (d : Int × Int) (h : d ∈ dirsFor piece) :
    (d.1 = -1 ∨ d.1 = 1) ∧ (d.2 = -1 ∨ d.2 = 1) := by
  unfold dirsFor at h
  split at h
  · simp only [List.mem_cons, List.mem_singleton, List.not_mem_nil, or_false] at h
    rcases h with rfl | rfl | rfl | rfl <;> exact ⟨by simp, by simp⟩
  · split at h
    · simp only [List.mem_cons, List.mem_singleton, List.not_mem_nil, or_false] at h
      rcases h with rfl | rfl <;> exact ⟨by simp, by simp⟩
    · simp only [List.mem_cons, List.mem_singleton, List.not_mem_nil, or_false] at h
      rcases h with rfl | rfl <;> exact ⟨by simp, by simp⟩

lemma jumpsAt_facts (b : Board) (pos : Pos) (m : Move) (h : m ∈ jumpsAt b pos) :
    MoveFacts b pos m ∧ m.isJump = true := by
  unfold jumpsAt at h
  cases hp : getP b pos.row pos.col with
  | none => rw [hp] at h; exact absurd h (List.not_mem_nil m)
  | some piece =>
    rw [hp, List.mem_filterMap] at h
    obtain ⟨d, hd, hfd⟩ := h
    obtain ⟨hd1, hd2⟩ := dirsFor_mem piece d hd
    simp only at hfd
    split at hfd
    case isTrue hv =>
      split at hfd
      case h_1 heq1 heq2 =>
        rename_i mid
        split at hfd
        case isTrue hne =>
          cases hfd
          have hv' : 0 ≤ pos.row + d.1 * 2 ∧ pos.row + d.1 * 2 < 8 ∧
              0 ≤ pos.col + d.2 * 2 ∧ pos.col + d.2 * 2 < 8 := by
            have := of_decide_eq_true hv
            simpa [BOARD_SIZE] using this
          refine ⟨⟨rfl, ⟨piece, hp⟩, hv', heq1, ?_, Or.inl ?_⟩, rfl⟩
          · show pos.row + d.1 * 2 ≠ pos.row
            omega
          · refine ⟨rfl, (⟨pos.row + d.1, pos.col + d.2⟩ : Pos), mid, rfl, heq2, ?_, ?_⟩
            · show pos.row + d.1 ≠ pos.row
              omega
            · show pos.row + d.1 ≠ pos.row + d.1 * 2
              omega
        case isFalse => exact absurd hfd (by simp)
      case h_2 => exact absurd hfd (by simp)
    case isFalse => exact absurd hfd (by simp)

lemma simplesAt_facts (b : Board) (pos : Pos) (m : Move) (h : m ∈ simplesAt b pos) :
    MoveFacts b pos m ∧ m.isJump = false := by
  unfold simplesAt at h
  cases hp : getP b pos.row pos.col with
  | none => rw [hp] at h; exact absurd h (List.not_mem_nil m)
  | some piece =>
    rw [hp, List.mem_filterMap] at h
    obtain ⟨d, hd, hfd⟩ := h
    obtain ⟨hd1, hd2⟩ := dirsFor_mem piece d hd
    simp only at hfd
    split at hfd
    case isTrue hv =>
      split at hfd
      case h_1 heq1 =>
        cases hfd
        have hv' : 0 ≤ pos.row + d.1 ∧ pos.row + d.1 < 8 ∧
            0 ≤ pos.col + d.2 ∧ pos.col + d.2 < 8 := by
          have := of_decide_eq_true hv
          simpa [BOARD_SIZE] using this
        refine ⟨⟨rfl, ⟨piece, hp⟩, hv', heq1, ?_, Or.inr ⟨rfl, rfl⟩⟩, rfl⟩
        show pos.row + d.1 ≠ pos.row
        omega
      case h_2 => exact absurd hfd (by simp)
    case isFalse => exact absurd hfd (by simp)

lemma getValidMoves_split (b : Board) (pos : Pos) (mj : Bool) (m : Move)
    (h : m ∈ getValidMoves b pos mj) :
    m ∈ jumpsAt b pos ∨ m ∈ simplesAt b pos := by
  unfold getValidMoves at h
  cases hp : getP b pos.row pos.col with
  | none => rw [hp] at h; exact absurd h (List.not_mem_nil m)
  | some piece =>
    rw [hp] at h
    simp only at h
    split at h
    · exact Or.inl h
    · split at h
      · rcases List.mem_append.mp h with h' | h'
        · exact Or.inl h'
        · exact Or.inr h'
      · exact Or.inl h

lemma getValidMoves_facts (b : Board) (pos : Pos) (mj : Bool) (m : Move)
    (h : m ∈ getValidMoves b pos mj) : MoveFacts b pos m := by
  rcases getValidMoves_split b pos mj m h with h' | h'
  · exact (jumpsAt_facts b pos m h').1
  · exact (simplesAt_facts b pos m h').1

/-- With the chain flag set and at least one jump available, the
generator returns exactly the jump list. -/
lemma getValidMoves_true_of_jumps (b : Board) (pos : Pos)
    (h : jumpsAt b pos ≠ []) : getValidMoves b pos true = jumpsAt b pos := by
  have hp : ∃ piece, getP b pos.row pos.col = some piece := by
    cases hg : getP b pos.row pos.col with
    | none => exact absurd (by rw [jumpsAt, hg]) h
    | some piece => exact ⟨piece, rfl⟩
  obtain ⟨piece, hp⟩ := hp
  unfold getValidMoves
  rw [hp]
  simp only
  rw [if_pos ⟨List.length_pos.mpr h, trivial⟩]

/-- With the chain flag set and no jump available, the generator falls
through to the simple moves (the source's second branch). -/
lemma getValidMoves_true_of_no_jumps (b : Board) (pos : Pos)
    (h : jumpsAt b pos = []) : getValidMoves b pos true = simplesAt b pos := by
  unfold getValidMoves
  cases hg : getP b pos.row pos.col with
  | none =>
    have : simplesAt b pos = [] := by rw [simplesAt, hg]
    rw [this]
  | some piece =>
    simp only
    rw [if_neg (by rw [h]; simp), if_pos (Or.inr (by rw [h]; rfl)), h,
      List.nil_append]

/-- Filtering the chain-flag generator output to jumps yields exactly
the jump list — this is how every caller of
`getValidMoves(..., true)` recovers the capture set. -/
lemma filter_getValidMoves_true (b : Board) (pos : Pos) :
    (getValidMoves b pos true).filter (fun m => m.isJump) = jumpsAt b pos := by
  by_cases h : jumpsAt b pos = []
  · rw [getValidMoves_true_of_no_jumps b pos h, h]
    refine List.filter_eq_nil_iff.mpr (fun m hm => ?_)
    rw [(simplesAt_facts b pos m hm).2]
    simp
  · rw [getValidMoves_true_of_jumps b pos h]
    refine List.filter_eq_self.mpr (fun m hm => ?_)
    rw [(jumpsAt_facts b pos m hm).2]

/-! ### Effect of applying a move -/

lemma otherPlayer_ne (p : Player) : otherPlayer p ≠ p := by
  cases p <;> simp [otherPlayer]

/-- Unpacking a successful `simulateMove`. -/
lemma simulateMove_elim (b : Board) (m : Move) (cp : Player) (res : SimResult)
    (h : simulateMove b m cp = some res) :
    ∃ piece, getP b m.fromSq.row m.fromSq.col = some piece ∧
      res.newBoard = simBoard b m piece ∧
      (res.nextTurn = cp → m.isJump = true) := by
  unfold simulateMove at h
  cases hp : getP b m.fromSq.row m.fromSq.col with
  | none => rw [hp] at h; exact Option.noConfusion h
  | some piece =>
    rw [hp] at h
    refine ⟨piece, rfl, ?_⟩
    simp only at h
    split at h
    · split at h
      · cases h
        exact ⟨rfl, fun ht => absurd ht (otherPlayer_ne cp)⟩
      · next hj _ =>
        cases h
        exact ⟨rfl, fun _ => hj⟩
    · cases h
      exact ⟨rfl, fun ht => absurd ht (otherPlayer_ne cp)⟩

/-- The landing square of an applied generated move holds the moved
piece, with the king flag promoted exactly when the promotion
condition fires. -/
lemma simBoard_to (b : Board) (m : Move) (piece : Piece)
    (hf : MoveFacts b m.fromSq m) :
    getP (simBoard b m piece) m.toSq.row m.toSq.col
      = some ⟨piece.player, piece.isKing || promoFlag piece m⟩ := by
  obtain ⟨-, -, hto, -, hne, hjump⟩ := hf
  have hto' : getP (setP (setP b m.toSq.row m.toSq.col
      (some ⟨piece.player, piece.isKing || promoFlag piece m⟩))
      m.fromSq.row m.fromSq.col none) m.toSq.row m.toSq.col
      = some ⟨piece.player, piece.isKing || promoFlag piece m⟩ := by
    rw [getP_setP_ne _ _ _ _ _ _ (fun hc => hne hc.1),
      getP_setP_same _ _ _ _ hto]
  unfold simBoard
  rcases hjump with ⟨hj, j, q, hjp, _, hjne, hjto⟩ | ⟨hj, hjp⟩
  · rw [hjp]
    simp only [hj, if_pos]
    rw [getP_setP_ne _ _ _ _ _ _ (fun hc => hjto hc.1.symm)]
    exact hto'
  · rw [hjp]
    exact hto'

/-- The origin square of an applied generated move is emptied. -/
lemma simBoard_from (b : Board) (m : Move) (piece : Piece)
    (hp : getP b m.fromSq.row m.fromSq.col = some piece)
    (hf : MoveFacts b m.fromSq m) :
    getP (simBoard b m piece) m.fromSq.row m.fromSq.col = none := by
  obtain ⟨-, -, -, -, -, hjump⟩ := hf
  have hv := getP_isSome_valid b _ _ piece hp
  have hfrom : getP (setP (setP b m.toSq.row m.toSq.col
      (some ⟨piece.player, piece.isKing || promoFlag piece m⟩))
      m.fromSq.row m.fromSq.col none) m.fromSq.row m.fromSq.col = none :=
    getP_setP_same _ _ _ _ hv
  unfold simBoard
  rcases hjump with ⟨hj, j, q, hjp, _, hjne, _⟩ | ⟨hj, hjp⟩
  · rw [hjp]
    simp only [hj, if_pos]
    rw [getP_setP_ne _ _ _ _ _ _ (fun hc => hjne hc.1.symm)]
    exact hfrom
  · rw [hjp]
    exact hfrom

/-- The jumped square of an applied generated jump is emptied. -/
lemma simBoard_jumped (b : Board) (m : Move) (piece : Piece) (j : Pos)
    (hf : MoveFacts b m.fromSq m) (hj : m.isJump = true)
    (hjp : m.jumpedPiece = some j) :
    getP (simBoard b m piece) j.row j.col = none := by
  obtain ⟨-, -, -, -, -, hjump⟩ := hf
  rcases hjump with ⟨-, j', q, hjp', hjq, -, -⟩ | ⟨hj', -⟩
  · rw [hjp'] at hjp
    cases hjp
    have hv := getP_isSome_valid b _ _ q hjq
    unfold simBoard
    rw [hjp']
    simp only [hj, if_pos]
    exact getP_setP_same _ _ _ _ hv
  · rw [hj'] at hj
    exact Bool.noConfusion hj

/-- Squares other than origin, landing, and jumped square are
untouched by move application. -/
lemma simBoard_frame (b : Board) (m : Move) (piece : Piece) (r c : Int)
    (hfr : ¬(r = m.fromSq.row ∧ c = m.fromSq.col))
    (hto : ¬(r = m.toSq.row ∧ c = m.toSq.col))
    (hj : ∀ j : Pos, m.jumpedPiece = some j → ¬(r = j.row ∧ c = j.col)) :
    getP (simBoard b m piece) r c = getP b r c := by
  unfold simBoard
  have hbase : getP (setP (setP b m.toSq.row m.toSq.col
      (some ⟨piece.player, piece.isKing || promoFlag piece m⟩))
      m.fromSq.row m.fromSq.col none) r c = getP b r c := by
    rw [getP_setP_ne _ _ _ _ _ _ hfr, getP_setP_ne _ _ _ _ _ _ hto]
  cases hjp : m.jumpedPiece with
  | none => exact hbase
  | some j =>
    simp only
    split
    · rw [getP_setP_ne _ _ _ _ _ _ (hj j hjp)]
      exact hbase
    · exact hbase

/-- Applying a generated jump removes exactly one piece. -/
lemma pieceCount_simBoard_jump (b : Board) (m : Move) (piece : Piece)
    (hp : getP b m.fromSq.row m.fromSq.col = some piece)
    (hf : MoveFacts b m.fromSq m) (hj : m.isJump = true) :
    pieceCount (simBoard b m piece) + 1 = pieceCount b := by
  obtain ⟨-, -, hto, htoe, hne, hjump⟩ := hf
  rcases hjump with ⟨-, j, q, hjp, hjq, hjfrom, hjto⟩ | ⟨hj', -⟩
  · have hvfrom := getP_isSome_valid b _ _ piece hp
    have hvj := getP_isSome_valid b _ _ q hjq
    set p' : Piece := ⟨piece.player, piece.isKing || promoFlag piece m⟩
    set b1 := setP b m.toSq.row m.toSq.col (some p') with hb1
    set b2 := setP b1 m.fromSq.row m.fromSq.col none with hb2
    have hc1 : pieceCount b1 = pieceCount b + 1 := by
      have := pieceCount_setP b m.toSq.row m.toSq.col (some p') hto
      rw [htoe] at this
      simpa using this
    have hgb1from : getP b1 m.fromSq.row m.fromSq.col = some piece := by
      rw [hb1, getP_setP_ne _ _ _ _ _ _ (fun hc => hne hc.1.symm), hp]
    have hc2 : pieceCount b2 + 1 = pieceCount b1 := by
      have := pieceCount_setP b1 m.fromSq.row m.fromSq.col none hvfrom
      rw [hgb1from] at this
      simpa using this
    have hgb2j : getP b2 j.row j.col = some q := by
      rw [hb2, getP_setP_ne _ _ _ _ _ _ (fun hc => hjfrom hc.1), hb1,
        getP_setP_ne _ _ _ _ _ _ (fun hc => hjto hc.1), hjq]
    have hc3 : pieceCount (setP b2 j.row j.col none) + 1 = pieceCount b2 := by
      have := pieceCount_setP b2 j.row j.col none hvj
      rw [hgb2j] at this
      simpa using this
    have hsim : simBoard b m piece = setP b2 j.row j.col none := by
      unfold simBoard
      rw [hjp]
      simp only [hj, if_pos]
    rw [hsim]
    omega
  · rw [hj'] at hj
    exact Bool.noConfusion hj

/-- Applying a generated non-jump move leaves the piece count
unchanged. -/
lemma pieceCount_simBoard_simple (b : Board) (m : Move) (piece : Piece)
    (hp : getP b m.fromSq.row m.fromSq.col = some piece)
    (hf : MoveFacts b m.fromSq m) (hj : m.isJump = false) :
    pieceCount (simBoard b m piece) = pieceCount b := by
  obtain ⟨-, -, hto, htoe, hne, hjump⟩ := hf
  have hvfrom := getP_isSome_valid b _ _ piece hp
  set p' : Piece := ⟨piece.player, piece.isKing || promoFlag piece m⟩
  set b1 := setP b m.toSq.row m.toSq.col (some p') with hb1
  set b2 := setP b1 m.fromSq.row m.fromSq.col none with hb2
  have hc1 : pieceCount b1 = pieceCount b + 1 := by
    have := pieceCount_setP b m.toSq.row m.toSq.col (some p') hto
    rw [htoe] at this
    simpa using this
  have hgb1from : getP b1 m.fromSq.row m.fromSq.col = some piece := by
    rw [hb1, getP_setP_ne _ _ _ _ _ _ (fun hc => hne hc.1.symm), hp]
  have hc2 : pieceCount b2 + 1 = pieceCount b1 := by
    have := pieceCount_setP b1 m.fromSq.row m.fromSq.col none hvfrom
    rw [hgb1from] at this
    simpa using this
  have hsim : simBoard b m piece = b2 := by
    unfold simBoard
    rcases hjump with ⟨hj', -⟩ | ⟨-, hjp⟩
    · rw [hj'] at hj; exact Bool.noConfusion hj
    · rw [hjp]
  rw [hsim]
  omega

/-! ### Soundness of the node move enumeration -/

lemma allPlayerMoves_facts (b : Board) (pl : Player) (m : Move)
    (h : m ∈ allPlayerMoves b pl) : MoveFacts b m.fromSq m := by
  unfold allPlayerMoves at h
  simp only [List.mem_flatMap] at h
  obtain ⟨r, hr, c, hc, h⟩ := h
  cases hg : getP b (r : Int) (c : Int) with
  | none => rw [hg] at h; exact absurd h (List.not_mem_nil m)
  | some piece =>
    rw [hg] at h
    simp only at h
    split at h
    · split at h
      · have hm := List.mem_of_mem_filter h
        have hf := getValidMoves_facts b ⟨(r : Int), (c : Int)⟩ false m hm
        rw [hf.1]
        exact hf
      · have hf := getValidMoves_facts b ⟨(r : Int), (c : Int)⟩ false m h
        rw [hf.1]
        exact hf
    · exact absurd h (List.not_mem_nil m)

lemma nodeMoves_facts (b : Board) (maxi : Bool) (p : Player)
    (mjf : Option Pos) (m : Move) (h : m ∈ nodeMoves b maxi p mjf) :
    MoveFacts b m.fromSq m := by
  unfold nodeMoves at h
  cases mjf with
  | some pp =>
    have hm := List.mem_of_mem_filter h
    have hf := getValidMoves_facts b pp true m hm
    rw [hf.1]
    exact hf
  | none => exact allPlayerMoves_facts b _ m h

/-! ### Fuel stability of the search -/

lemma foldl_congr_mem {α β : Type} (l : List α) (f g : β → α → β) (init : β)
    (h : ∀ st a, a ∈ l → f st a = g st a) :
    l.foldl f init = l.foldl g init := by
  induction l generalizing init with
  | nil => rfl
  | cons x xs ih =>
    rw [List.foldl_cons, List.foldl_cons, h init x (List.mem_cons_self x xs)]
    exact ih _ (fun st a ha => h st a (List.mem_cons_of_mem x ha))

lemma abMaxLoop_congr (score1 score2 : Option Int → Move → Int)
    (beta : Option Int) (moves : List Move) (init : Option Int × Option Int × Bool)
    (h : ∀ a m, m ∈ moves → score1 a m = score2 a m) :
    abMaxLoop score1 beta moves init = abMaxLoop score2 beta moves init := by
  unfold abMaxLoop
  refine foldl_congr_mem moves _ _ init (fun st m hm => ?_)
  by_cases hd : st.2.2 = true
  · simp [hd]
  · simp [hd, h st.2.1 m hm]

lemma abMinLoop_congr (score1 score2 : Option Int → Move → Int)
    (alpha : Option Int) (moves : List Move) (init : Option Int × Option Int × Bool)
    (h : ∀ a m, m ∈ moves → score1 a m = score2 a m) :
    abMinLoop score1 alpha moves init = abMinLoop score2 alpha moves init := by
  unfold abMinLoop
  refine foldl_congr_mem moves _ _ init (fun st m hm => ?_)
  by_cases hd : st.2.2 = true
  · simp [hd]
  · simp [hd, h st.2.1 m hm]

/-- One search step strictly decreases `depth + pieceCount`: either the
depth drops by a ply, or a capture chain continues and the jump has
removed a piece. -/
lemma child_measure (b : Board) (d : Nat) (cp : Player) (m : Move)
    (hm : MoveFacts b m.fromSq m) (hd : d ≠ 0) :
    (if ((simulateMove b m cp).getD ⟨b, otherPlayer cp, none⟩).nextTurn = cp
        then d else d - 1)
      + pieceCount ((simulateMove b m cp).getD ⟨b, otherPlayer cp, none⟩).newBoard
      < d + pieceCount b := by
  cases hs : simulateMove b m cp with
  | none =>
    simp only [Option.getD_none]
    rw [if_neg (otherPlayer_ne cp)]
    omega
  | some res =>
    obtain ⟨piece, hp, hb, hcont⟩ := simulateMove_elim b m cp res hs
    simp only [Option.getD_some]
    by_cases ht : res.nextTurn = cp
    · rw [if_pos ht, hb]
      have := pieceCount_simBoard_jump b m piece hp hm (hcont ht)
      omega
    · rw [if_neg ht, hb]
      cases hj : m.isJump with
      | true =>
        have := pieceCount_simBoard_jump b m piece hp hm hj
        omega
      | false =>
        have := pieceCount_simBoard_simple b m piece hp hm hj
        omega

/-- Any two sufficient fuels compute the same search value: the
recursion of `minimax` is total, bounded by the measure
`depth + pieceCount`. -/
lemma minimaxF_fuel_eq (f : Nat) : ∀ (f2 : Nat) (b : Board) (d : Nat)
    (alpha beta : Option Int) (maxi : Bool) (p : Player) (mjf : Option Pos),
    d + pieceCount b + 1 ≤ f → d + pieceCount b + 1 ≤ f2 →
    minimaxF f b d alpha beta maxi p mjf = minimaxF f2 b d alpha beta maxi p mjf := by
  induction f with
  | zero => intro f2 b d alpha beta maxi p mjf hf hf2; omega
  | succ f ih =>
    intro f2 b d alpha beta maxi p mjf hf hf2
    cases f2 with
    | zero => omega
    | succ f2 =>
      simp only [minimaxF]
      by_cases hd : d = 0
      · rw [if_pos hd, if_pos hd]
      · rw [if_neg hd, if_neg hd]
        by_cases hmv : (nodeMoves b maxi p mjf).length = 0
        · rw [if_pos hmv, if_pos hmv]
        · rw [if_neg hmv, if_neg hmv]
          have hchild : ∀ (m : Move), m ∈ nodeMoves b maxi p mjf →
              ∀ (a2 b2 : Option Int) (cp : Player) (cm hm2 : Bool),
              childCall (fun bb dd mj mx => minimaxF f bb dd a2 b2 mx p mj)
                  b d cp cm hm2 m
                = childCall (fun bb dd mj mx => minimaxF f2 bb dd a2 b2 mx p mj)
                  b d cp cm hm2 m := by
            intro m hm a2 b2 cp cm hm2
            have hfacts := nodeMoves_facts b maxi p mjf m hm
            have hmeas := child_measure b d cp m hfacts hd
            simp only [childCall]
            exact ih f2 _ _ _ _ _ _ _ (by omega) (by omega)
          by_cases hmaxi : maxi = true
          · rw [if_pos hmaxi, if_pos hmaxi]
            rw [abMaxLoop_congr
              (fun alpha' move => childCall
                (fun b' d' mjf' maxi' => minimaxF f b' d' alpha' beta maxi' p mjf')
                b d p true false move)
              (fun alpha' move => childCall
                (fun b' d' mjf' maxi' => minimaxF f2 b' d' alpha' beta maxi' p mjf')
                b d p true false move)
              beta (nodeMoves b maxi p mjf) (none, alpha, false)
              (fun a m hm => hchild m hm a beta p true false)]
          · rw [if_neg hmaxi, if_neg hmaxi]
            rw [abMinLoop_congr
              (fun beta' move => childCall
                (fun b' d' mjf' maxi' => minimaxF f b' d' alpha beta' maxi' p mjf')
                b d (otherPlayer p) false true move)
              (fun beta' move => childCall
                (fun b' d' mjf' maxi' => minimaxF f2 b' d' alpha beta' maxi' p mjf')
                b d (otherPlayer p) false true move)
              alpha (nodeMoves b maxi p mjf) (none, beta, false)
              (fun a m hm => hchild m hm alpha a (otherPlayer p) false true)]

/-! ### Properties of the static evaluator -/

lemma squareScore_neg (b : Board) (r c : Int) :
    squareScore b Player.red r c = - squareScore b Player.black r c := by
  unfold squareScore
  cases getP b r c with
  | none => simp
  | some piece => cases hpl : piece.player <;> simp [hpl]

lemma sum_map_neg (l : List Int) : (l.map (fun x => -x)).sum = - l.sum := by
  induction l with
  | nil => simp
  | cons x xs ih =>
    simp only [List.map_cons, List.sum_cons, ih]
    omega

lemma scoreList_neg (b : Board) :
    scoreList b Player.red = (scoreList b Player.black).map (fun x => -x) := by
  unfold scoreList
  rw [List.map_flatMap]
  congr 1
  funext r
  rw [List.map_map]
  congr 1
  funext c
  exact squareScore_neg b (Int.ofNat r) (Int.ofNat c)

lemma squareScore_abs_le (b : Board) (p : Player) (r c : Int)
    (hr : 0 ≤ r) (hr8 : r < 8) : |squareScore b p r c| ≤ 41 := by
  rw [abs_le]
  unfold squareScore
  cases getP b r c with
  | none => simp
  | some piece =>
    rcases piece with ⟨pl, king⟩
    cases pl <;> cases king <;> cases p <;> (try simp) <;> (try split_ifs) <;> omega

lemma sum_abs_le (l : List Int) (k : Int) (_hk : 0 ≤ k)
    (h : ∀ x ∈ l, |x| ≤ k) : |l.sum| ≤ k * l.length := by
  induction l with
  | nil => simp
  | cons x xs ih =>
    have hx := h x (List.mem_cons_self x xs)
    have hxs := ih (fun y hy => h y (List.mem_cons_of_mem x hy))
    calc |(x :: xs).sum| = |x + xs.sum| := by rw [List.sum_cons]
    _ ≤ |x| + |xs.sum| := abs_add _ _
    _ ≤ k + k * xs.length := add_le_add hx hxs
    _ = k * (x :: xs).length := by
        rw [List.length_cons]
        push_cast
        ring

lemma scoreList_length (b : Board) (p : Player) : (scoreList b p).length = 64 := by
  unfold scoreList
  rw [List.length_flatMap]
  have h : ∀ l : List Nat,
      (List.map (List.length ∘ fun r =>
        List.map (fun c => squareScore b p (Int.ofNat r) (Int.ofNat c)) (List.range 8)) l).sum
      = 8 * l.length := by
    intro l
    induction l with
    | nil => simp
    | cons x xs ih =>
      simp only [List.map_cons, List.sum_cons, ih, Function.comp,
        List.length_map, List.length_range, List.length_cons]
      omega
  rw [h]
  simp [List.length_range]

lemma scoreList_abs_le (b : Board) (p : Player) :
    ∀ x ∈ scoreList b p, |x| ≤ 41 := by
  intro x hx
  unfold scoreList at hx
  simp only [List.mem_flatMap, List.mem_map, List.mem_range] at hx
  obtain ⟨r, hr, c, hc, rfl⟩ := hx
  exact squareScore_abs_le b p (Int.ofNat r) (Int.ofNat c) (Int.ofNat_nonneg r)
    (by rw [Int.ofNat_eq_natCast]; exact_mod_cast hr)

/-- The heuristic is bounded well below the ±10000 loss sentinel. -/
lemma evaluateBoard_abs_lt (b : Board) (p : Player) :
    |evaluateBoard b p| < 10000 := by
  unfold evaluateBoard
  have := sum_abs_le (scoreList b p) 41 (by omega) (scoreList_abs_le b p)
  rw [scoreList_length b p] at this
  omega

/-! ### The best-move scan of getAiMove -/

lemma bestLoop_mem (score : Move → Int) (l : List Move) (best : Move)
    (me : Option Int) :
    bestLoop score l best me = best ∨ bestLoop score l best me ∈ l := by
  induction l generalizing best me with
  | nil => exact Or.inl rfl
  | cons m rest ih =>
    simp only [bestLoop]
    split
    · rcases ih m (some (score m)) with h | h
      · refine Or.inr ?_
        rw [h]
        exact List.mem_cons_self m rest
      · exact Or.inr (List.mem_cons_of_mem m h)
    · rcases ih best me with h | h
      · exact Or.inl h
      · exact Or.inr (List.mem_cons_of_mem m h)

lemma bestLoop_sync (score : Move → Int) (l : List Move) (best : Move) :
    score best ≤ score (bestLoop score l best (some (score best))) ∧
    ∀ x ∈ l, score x ≤ score (bestLoop score l best (some (score best))) := by
  induction l generalizing best with
  | nil => exact ⟨le_refl _, fun x hx => absurd hx (List.not_mem_nil x)⟩
  | cons m rest ih =>
    simp only [bestLoop]
    split
    · next hlt =>
      have hlt' : score best < score m := of_decide_eq_true hlt
      obtain ⟨h1, h2⟩ := ih m
      refine ⟨le_trans (le_of_lt hlt') h1, fun x hx => ?_⟩
      rcases List.mem_cons.mp hx with rfl | hx
      · exact h1
      · exact h2 x hx
    · next hge =>
      have hge' : ¬(score best < score m) := by
        intro hc
        exact hge (decide_eq_true hc)
      obtain ⟨h1, h2⟩ := ih best
      refine ⟨h1, fun x hx => ?_⟩
      rcases List.mem_cons.mp hx with rfl | hx
      · exact le_trans (le_of_not_lt hge') h1
      · exact h2 x hx

/-- Scanning a nonempty list from a `-Infinity` accumulator returns a
member achieving the maximal score. -/
lemma bestLoop_opt (score : Move → Int) (sh : List Move) (m0 : Move)
    (hne : sh ≠ []) :
    bestLoop score sh m0 none ∈ sh ∧
    ∀ x ∈ sh, score x ≤ score (bestLoop score sh m0 none) := by
  cases sh with
  | nil => exact absurd rfl hne
  | cons m1 rest =>
    have hred : bestLoop score (m1 :: rest) m0 none
        = bestLoop score rest m1 (some (score m1)) := by
      simp [bestLoop]
    rw [hred]
    have hs := bestLoop_sync score rest m1
    have hm := bestLoop_mem score rest m1 (some (score m1))
    constructor
    · rcases hm with h | h
      · rw [h]
        exact List.mem_cons_self m1 rest
      · exact List.mem_cons_of_mem m1 h
    · intro x hx
      rcases List.mem_cons.mp hx with rfl | hx
      · exact hs.1
      · exact hs.2 x hx

/-! ### The AI candidate set -/

/-- Under the global mandatory-jump rule (a jump exists, or a chain
square is forced) every candidate move of `getAiMove` is a jump. -/
lemma aiPossibleMoves_jumps (b : Board) (pl : Player) (mjf : Option Pos)
    (h : mjf ≠ none ∨ hasAnyJumps b pl = true) :
    ∀ m ∈ aiPossibleMoves b pl mjf, m.isJump = true := by
  intro m hm
  unfold aiPossibleMoves nodeMoves at hm
  cases mjf with
  | some pp => exact (List.mem_filter.mp hm).2
  | none =>
    rcases h with h | h
    · exact absurd rfl h
    · unfold allPlayerMoves at hm
      simp only [List.mem_flatMap] at hm
      obtain ⟨r, hr, c, hc, hm⟩ := hm
      cases hg : getP b (r : Int) (c : Int) with
      | none => rw [hg] at hm; exact absurd hm (List.not_mem_nil m)
      | some piece =>
        rw [hg] at hm
        simp only [h, if_pos] at hm
        split at hm
        · exact (List.mem_filter.mp hm).2
        · exact absurd hm (List.not_mem_nil m)

/-- Whatever the randomness, a move returned by `getAiMove` comes from
its candidate enumeration. -/
lemma getAiMove_mem (b : Board) (pl : Player) (diff : Difficulty)
    (mjf : Option Pos) (sh : List Move) (k : Nat) (m : Move)
    (hsh : ∀ x ∈ sh, x ∈ aiPossibleMoves b pl mjf)
    (h : getAiMove b pl diff mjf sh k = some m) :
    m ∈ aiPossibleMoves b pl mjf := by
  unfold getAiMove at h
  cases hl : aiPossibleMoves b pl mjf with
  | nil => rw [hl] at h; exact Option.noConfusion h
  | cons m0 rest =>
    rw [hl] at h
    simp only at h
    split at h
    · cases h
      exact List.get_mem _ _ _
    · cases h
      rcases bestLoop_mem (rootScore b pl _) sh m0 none with h' | h'
      · rw [h']
        exact List.mem_cons_self m0 rest
      · have := hsh _ h'
        rwa [hl] at this

/-! ### Concrete fixtures for counterexamples and witnesses -/

/-- The empty board. -/
def emptyBoard : Board := fun _ _ => none

/-- A lone red man on (5,4): it has no jump available. -/
def bLone : Board := fun i j =>
  if i.val = 5 ∧ j.val = 4 then some ⟨Player.red, false⟩ else none

/-- A red man on (5,4) with a black man on (4,3): red can jump to
(3,2) capturing (4,3), after which no further capture exists. -/
def bJump : Board := fun i j =>
  if i.val = 5 ∧ j.val = 4 then some ⟨Player.red, false⟩
  else if i.val = 4 ∧ j.val = 3 then some ⟨Player.black, false⟩ else none

/-- Like `bJump` but with a second black man on (2,1): after jumping to
(3,2) the red man can immediately jump again over (2,1) to (1,0). -/
def bChain : Board := fun i j =>
  if i.val = 5 ∧ j.val = 4 then some ⟨Player.red, false⟩
  else if i.val = 4 ∧ j.val = 3 then some ⟨Player.black, false⟩
  else if i.val = 2 ∧ j.val = 1 then some ⟨Player.black, false⟩ else none

/-- A lone red man on (1,2), one step away from the promotion row. -/
def bPromo : Board := fun i j =>
  if i.val = 1 ∧ j.val = 2 then some ⟨Player.red, false⟩ else none

/-- A lone red man on (5,0); its only move is the slide to (4,1). -/
def bSolo : Board := fun i j =>
  if i.val = 5 ∧ j.val = 0 then some ⟨Player.red, false⟩ else none

/-- The jump (5,4) → (3,2) over (4,3). -/
def mJump : Move := ⟨⟨5, 4⟩, ⟨3, 2⟩, true, some ⟨4, 3⟩⟩

/-- The promoting slide (1,2) → (0,1). -/
def mPromo : Move := ⟨⟨1, 2⟩, ⟨0, 1⟩, false, none⟩

/-- The slide (5,0) → (4,1). -/
def mSolo : Move := ⟨⟨5, 0⟩, ⟨4, 1⟩, false, none⟩

/-- The successor of applying `mJump` on `bJump`: turn passes to black
with no forced square. -/
def resJump : SimResult :=
  ⟨simBoard bJump mJump ⟨Player.red, false⟩, Player.black, none⟩

/-- The successor of applying `mPromo` on `bPromo`. -/
def resPromo : SimResult :=
  ⟨simBoard bPromo mPromo ⟨Player.red, false⟩, Player.black, none⟩

/-! ### The claims -/

/-- Claim C1, counterexample: with the chain flag set and no jump
available, `getValidMoves` is claimed to return an empty sequence of
jumps only; on a lone man it actually returns its (non-jump) simple
moves, a nonempty list containing a non-capturing move. -/
theorem c1_chainOnly_cex :
    (getValidMoves bLone ⟨5, 4⟩ true).all (fun m => m.isJump) = false ∧
    getValidMoves bLone ⟨5, 4⟩ true ≠ [] := by
  constructor
  · decide
  · decide

/-- Claim C1, amended: when the piece on the square has at least one
capturing move, `getValidMoves` with the chain flag set returns exactly
the jump list, so every returned move has `isJump = true`; when the
piece has no jump the source instead falls through and returns the
simple moves (callers recover the capture set by filtering). -/
theorem c1_chainOnly_amended (b : Board) (pos : Pos)
    (h : jumpsAt b pos ≠ []) :
    getValidMoves b pos true = jumpsAt b pos ∧
    ∀ m ∈ getValidMoves b pos true, m.isJump = true := by
  refine ⟨getValidMoves_true_of_jumps b pos h, fun m hm => ?_⟩
  rw [getValidMoves_true_of_jumps b pos h] at hm
  exact (jumpsAt_facts b pos m hm).2

/-- Witness for the amended C1 at a concrete capture position. -/
theorem c1_chainOnly_witness :
    getValidMoves bJump ⟨5, 4⟩ true = jumpsAt bJump ⟨5, 4⟩ :=
  (c1_chainOnly_amended bJump ⟨5, 4⟩ (by decide)).1

/-- Claim C2, counterexample: a move with `isJump = true` but no
`jumpedPiece`, from an occupied square, is claimed to fail; the source
applies it and produces a successor position (with the turn advanced
to the opponent). -/
theorem c2_illegal_cex :
    (simulateMove bLone ⟨⟨5, 4⟩, ⟨4, 3⟩, true, none⟩ Player.red).isSome = true := by
  decide

/-- Claim C2, amended: `simulateMove` fails to produce a successor
exactly when the `from` square is empty (the source throws on the null
dereference there, so the caller gets no next position and, positions
being values, observes no mutation).  Inconsistent jump metadata
(`isJump` set with `jumpedPiece` absent) is not rejected: the move is
applied, merely removing no piece. -/
theorem c2_illegal_amended (b : Board) (m : Move) (pl : Player) :
    (simulateMove b m pl).isSome = (getP b m.fromSq.row m.fromSq.col).isSome := by
  unfold simulateMove
  cases hp : getP b m.fromSq.row m.fromSq.col with
  | none => rfl
  | some piece =>
    simp only [Option.isSome_some]
    split
    · split <;> rfl
    · rfl

/-- Claim C3, counterexample: on a board where the side to move has
zero available moves, `minimax` at depth 0 is claimed to return the
-10000 sentinel (maximizing node); it actually returns the heuristic
evaluation, here 0. -/
theorem c3_sentinel_cex :
    nodeMoves emptyBoard true Player.red none = [] ∧
    minimax emptyBoard 0 none none true Player.red none = 0 ∧
    minimax emptyBoard 0 none none true Player.red none ≠ -10000 ∧
    minimax emptyBoard 0 none none true Player.red none ≠ 10000 := by
  refine ⟨by decide, by decide, by decide, by decide⟩

/-- Claim C3, amended: at every depth ≥ 1 (depth 0 returns the static
evaluation instead, even with no moves), a node whose side to move has
zero available moves evaluates to the loss sentinel: -10000 at a
maximizing node, +10000 at a minimizing node, for every alpha/beta
window and every forced-square input; and the sentinel magnitude
strictly exceeds every achievable heuristic evaluation. -/
theorem c3_sentinel_amended :
    (∀ (b : Board) (d : Nat) (alpha beta : Option Int) (maxi : Bool)
        (p : Player) (mjf : Option Pos),
      1 ≤ d → nodeMoves b maxi p mjf = [] →
      minimax b d alpha beta maxi p mjf = if maxi then -10000 else 10000) ∧
    (∀ (b : Board) (p : Player), |evaluateBoard b p| < 10000) := by
  constructor
  · intro b d alpha beta maxi p mjf hd hmv
    unfold minimax
    rw [minimaxF_succ_eq, if_neg (by omega : ¬ d = 0), hmv]
    simp only [List.length_nil]
    rw [if_pos trivial]
  · exact evaluateBoard_abs_lt

/-- Witness for the amended C3: the empty board at depth 1. -/
theorem c3_sentinel_witness :
    minimax emptyBoard 1 none none true Player.red none = -10000 ∧
    |evaluateBoard emptyBoard Player.red| < 10000 := by
  constructor
  · have h := c3_sentinel_amended.1 emptyBoard 1 none none true Player.red none
      (by decide) (by decide)
    simpa using h
  · exact c3_sentinel_amended.2 emptyBoard Player.red

/-- Claim C4 (confirmed): applying a jump whose landing square still
has a capture available yields the landing square as the forced chain
square and keeps the turn with the mover; otherwise (no further
capture, or not a jump) the forced square is absent and the turn flips
to the opponent.  The available-capture condition is `jumpsAt` on the
successor board, which is exactly what the source's
`getValidMoves(newBoard, move.to, true).filter(isJump)` computes. -/
theorem c4_chain_continuation (b : Board) (m : Move) (pl : Player) (piece : Piece)
    (hp : getP b m.fromSq.row m.fromSq.col = some piece) :
    (m.isJump = true → jumpsAt (simBoard b m piece) m.toSq ≠ [] →
      simulateMove b m pl = some ⟨simBoard b m piece, pl, some m.toSq⟩) ∧
    (m.isJump = true → jumpsAt (simBoard b m piece) m.toSq = [] →
      simulateMove b m pl = some ⟨simBoard b m piece, otherPlayer pl, none⟩) ∧
    (m.isJump = false →
      simulateMove b m pl = some ⟨simBoard b m piece, otherPlayer pl, none⟩) := by
  have hfu : followUpsAfter (simBoard b m piece) m
      = jumpsAt (simBoard b m piece) m.toSq := by
    unfold followUpsAfter
    exact filter_getValidMoves_true _ _
  refine ⟨?_, ?_, ?_⟩
  · intro hj hne
    unfold simulateMove
    rw [hp]
    simp only [hj, if_pos, hfu]
    rw [if_neg (fun hlen => hne (List.length_eq_zero.mp hlen))]
  · intro hj he
    unfold simulateMove
    rw [hp]
    simp only [hj, if_pos, hfu]
    rw [if_pos (by rw [he]; rfl)]
  · intro hj
    unfold simulateMove
    rw [hp]
    simp [hj]

/-- Witness for C4 at a concrete double-jump position: the first jump
of the chain keeps the turn with red and forces square (3,2). -/
theorem c4_chain_continuation_witness :
    simulateMove bChain mJump Player.red
      = some ⟨simBoard bChain mJump ⟨Player.red, false⟩, Player.red, some mJump.toSq⟩ :=
  (c4_chain_continuation bChain mJump Player.red ⟨Player.red, false⟩ (by decide)).1
    (by decide) (by decide)

/-- Claim C5 (confirmed): whenever the player has any capture
available, or a chain square is forced, every move `getAiMove` can
return — at any difficulty, for any shuffle drawn from the candidate
set and any random index — is a capturing move. -/
theorem c5_ai_mandatory_jump (b : Board) (pl : Player) (diff : Difficulty)
    (mjf : Option Pos) (sh : List Move) (k : Nat) (m : Move)
    (hforce : mjf ≠ none ∨ hasAnyJumps b pl = true)
    (hsh : ∀ x ∈ sh, x ∈ aiPossibleMoves b pl mjf)
    (h : getAiMove b pl diff mjf sh k = some m) :
    m.isJump = true :=
  aiPossibleMoves_jumps b pl mjf hforce m (getAiMove_mem b pl diff mjf sh k m hsh h)

/-- Witness for C5: on the capture position `bJump` the easy tier
returns the jump. -/
theorem c5_ai_mandatory_jump_witness : mJump.isJump = true :=
  c5_ai_mandatory_jump bJump Player.red Difficulty.easy none [] 0 mJump
    (Or.inr (by decide)) (by simp) (by decide)

/-- Claim C6 (confirmed): after applying a generated move, the landing
square holds the moved piece whose king flag is the old flag OR the
promotion condition (red landing on row 0, black landing on row 7),
evaluated after the move — so a man landing on its promotion row
becomes a king, a man landing elsewhere stays a man, and a king never
loses king status (and a piece promoted mid-chain is already a king on
the successor board used for the rest of the chain). -/
theorem c6_promotion (b : Board) (m : Move) (pl : Player) (piece : Piece)
    (res : SimResult)
    (hp : getP b m.fromSq.row m.fromSq.col = some piece)
    (hmem : m ∈ getValidMoves b m.fromSq false)
    (hs : simulateMove b m pl = some res) :
    getP res.newBoard m.toSq.row m.toSq.col
      = some ⟨piece.player, piece.isKing ||
          (decide (piece.player = Player.red ∧ m.toSq.row = 0) ||
           decide (piece.player = Player.black ∧ m.toSq.row = 7))⟩ := by
  obtain ⟨piece2, hp2, hb, -⟩ := simulateMove_elim b m pl res hs
  rw [hp] at hp2
  cases hp2
  rw [hb, simBoard_to b m piece (getValidMoves_facts b m.fromSq false m hmem)]
  cases hk : piece.isKing <;> simp [promoFlag, hk, BOARD_SIZE]

/-- Witness for C6: the red man sliding (1,2) → (0,1) is a king on the
successor board. -/
theorem c6_promotion_witness :
    getP resPromo.newBoard mPromo.toSq.row mPromo.toSq.col
      = some ⟨Player.red, (false : Bool) ||
          (decide (Player.red = Player.red ∧ mPromo.toSq.row = 0) ||
           decide (Player.red = Player.black ∧ mPromo.toSq.row = 7))⟩ :=
  c6_promotion bPromo mPromo Player.red ⟨Player.red, false⟩ resPromo
    (by decide) (by decide) (by decide)

/-- Claim C7 (confirmed): at the medium (depth 2) and hard (depth 4)
tiers, whatever order the pre-scan shuffle produced, the move returned
by `getAiMove` is a candidate move maximizing the root search score
over all candidates — so two runs on the same position always return a
move of the same, maximal score. -/
theorem c7_argmax (b : Board) (pl : Player) (diff : Difficulty)
    (mjf : Option Pos) (sh : List Move) (k : Nat) (m : Move)
    (hdiff : diff = Difficulty.medium ∨ diff = Difficulty.hard)
    (hperm : sh.Perm (aiPossibleMoves b pl mjf))
    (h : getAiMove b pl diff mjf sh k = some m) :
    m ∈ aiPossibleMoves b pl mjf ∧
    ∀ m2 ∈ aiPossibleMoves b pl mjf,
      rootScore b pl (if diff = Difficulty.medium then 2 else 4) m2
        ≤ rootScore b pl (if diff = Difficulty.medium then 2 else 4) m := by
  have hne : diff ≠ Difficulty.easy := by
    rcases hdiff with rfl | rfl <;> intro hc <;> exact Difficulty.noConfusion hc
  unfold getAiMove at h
  cases hl : aiPossibleMoves b pl mjf with
  | nil => rw [hl] at h; exact Option.noConfusion h
  | cons m0 rest =>
    rw [hl] at h
    simp only [if_neg hne] at h
    cases h
    have hshne : sh ≠ [] := by
      intro hc
      rw [hc] at hperm
      have := hperm.length_eq
      rw [hl] at this
      simp at this
    have hopt := bestLoop_opt
      (rootScore b pl (if diff = Difficulty.medium then 2 else 4)) sh m0 hshne
    rw [hl] at hperm
    constructor
    · exact hperm.mem_iff.mp hopt.1
    · intro m2 hm2
      exact hopt.2 m2 (hperm.mem_iff.mpr hm2)

/-- Witness for C7: the single-move position `bSolo` at medium
difficulty returns its only (hence maximal) candidate. -/
theorem c7_argmax_witness :
    mSolo ∈ aiPossibleMoves bSolo Player.red none ∧
    rootScore bSolo Player.red
        (if Difficulty.medium = Difficulty.medium then 2 else 4) mSolo
      ≤ rootScore bSolo Player.red
        (if Difficulty.medium = Difficulty.medium then 2 else 4) mSolo := by
  have h := c7_argmax bSolo Player.red Difficulty.medium none [mSolo] 0 mSolo
    (Or.inl rfl) (by decide) (by decide)
  exact ⟨h.1, h.2 mSolo h.1⟩

/-- Claim C8 (confirmed): the search recursion is total.  Any fuel at
least `depth + pieceCount + 1` computes the canonical value — each
recursive call either consumes a ply or, on a chain continuation at
unchanged depth, follows a jump that has removed a piece — and indeed
every generated jump removes exactly one piece from the board. -/
theorem c8_minimax_total :
    (∀ (f : Nat) (b : Board) (d : Nat) (alpha beta : Option Int)
        (maxi : Bool) (p : Player) (mjf : Option Pos),
      d + pieceCount b + 1 ≤ f →
      minimaxF f b d alpha beta maxi p mjf
        = minimax b d alpha beta maxi p mjf) ∧
    (∀ (b : Board) (pos : Pos) (mj : Bool) (m : Move) (pl : Player)
        (res : SimResult),
      m ∈ getValidMoves b pos mj → m.isJump = true →
      simulateMove b m pl = some res →
      pieceCount res.newBoard + 1 = pieceCount b) := by
  constructor
  · intro f b d alpha beta maxi p mjf hf
    exact minimaxF_fuel_eq f (d + pieceCount b + 1) b d alpha beta maxi p mjf
      hf (le_refl _)
  · intro b pos mj m pl res hmem hj hs
    have hfacts := getValidMoves_facts b pos mj m hmem
    have hfacts2 : MoveFacts b m.fromSq m := by
      rw [hfacts.1]
      exact hfacts
    obtain ⟨piece, hp, hb, -⟩ := simulateMove_elim b m pl res hs
    rw [hb]
    exact pieceCount_simBoard_jump b m piece hp hfacts2 hj

/-- Witness for C8: ample fuel agrees with the canonical value on a
no-move node, and the concrete jump on `bJump` removes one of its two
pieces. -/
theorem c8_minimax_total_witness :
    minimaxF 50 emptyBoard 1 none none true Player.red none
      = minimax emptyBoard 1 none none true Player.red none ∧
    pieceCount resJump.newBoard + 1 = pieceCount bJump := by
  constructor
  · exact c8_minimax_total.1 50 emptyBoard 1 none none true Player.red none
      (by decide)
  · exact c8_minimax_total.2 bJump ⟨5, 4⟩ false mJump Player.red resJump
      (by decide) (by decide) (by decide)

/-- Claim C9 (confirmed): the static evaluation is antisymmetric in
the perspective player — each square contributes a value independent
of the perspective, signed by ownership. -/
theorem c9_eval_antisymmetric (b : Board) :
    evaluateBoard b Player.red = - evaluateBoard b Player.black := by
  unfold evaluateBoard
  rw [scoreList_neg, sum_map_neg]

/-- Claim C10 (confirmed): frame property of move application.  The
successor board agrees with the input board on every square other than
the origin (now empty), the landing square (now holding the moved,
possibly promoted piece), and — for a jump — the jumped square (now
empty); the input board itself is untouched, being a pure value (the
source deep-copies before mutating). -/
theorem c10_frame (b : Board) (m : Move) (pl : Player) (piece : Piece)
    (res : SimResult) (mj : Bool)
    (hp : getP b m.fromSq.row m.fromSq.col = some piece)
    (hmem : m ∈ getValidMoves b m.fromSq mj)
    (hs : simulateMove b m pl = some res) :
    (∀ r c : Int, ¬(r = m.fromSq.row ∧ c = m.fromSq.col) →
      ¬(r = m.toSq.row ∧ c = m.toSq.col) →
      (∀ j : Pos, m.jumpedPiece = some j → ¬(r = j.row ∧ c = j.col)) →
      getP res.newBoard r c = getP b r c) ∧
    getP res.newBoard m.fromSq.row m.fromSq.col = none ∧
    getP res.newBoard m.toSq.row m.toSq.col
      = some ⟨piece.player, piece.isKing || promoFlag piece m⟩ ∧
    (∀ j : Pos, m.isJump = true → m.jumpedPiece = some j →
      getP res.newBoard j.row j.col = none) := by
  have hfacts := getValidMoves_facts b m.fromSq mj m hmem
  obtain ⟨piece2, hp2, hb, -⟩ := simulateMove_elim b m pl res hs
  rw [hp] at hp2
  cases hp2
  rw [hb]
  refine ⟨?_, ?_, ?_, ?_⟩
  · intro r c hfr hto hj
    exact simBoard_frame b m piece r c hfr hto hj
  · exact simBoard_from b m piece hp hfacts
  · exact simBoard_to b m piece hfacts
  · intro j hj hjp
    exact simBoard_jumped b m piece j hfacts hj hjp

/-- Witness for C10 on the concrete jump `mJump` over `bJump`: an
untouched square keeps its content, origin and jumped square are
cleared, and the landing square holds the mover. -/
theorem c10_frame_witness :
    getP resJump.newBoard 0 0 = getP bJump 0 0 ∧
    getP resJump.newBoard mJump.fromSq.row mJump.fromSq.col = none ∧
    getP resJump.newBoard mJump.toSq.row mJump.toSq.col
      = some ⟨Player.red, (false : Bool) || promoFlag ⟨Player.red, false⟩ mJump⟩ ∧
    getP resJump.newBoard (4 : Int) (3 : Int) = none := by
  have h := c10_frame bJump mJump Player.red ⟨Player.red, false⟩ resJump false
    (by decide) (by decide) (by decide)
  refine ⟨?_, h.2.1, h.2.2.1, ?_⟩
  · refine h.1 0 0 (by decide) (by decide) ?_
    intro j hj
    injection hj with hj
    rw [← hj]
    decide
  · exact h.2.2.2 ⟨4, 3⟩ (by decide) (by decide)

end Checkers
